import Mathlib

/-!
# Verification of the olfaction version-control access layer

Shallow embedding of the git access layer (`src/git.ts`) and the GraphQL
resolvers (`src/routes/graphql.ts`) of the olfaction code-smell service,
together with proofs of the specified properties.

JavaScript strings are modelled as Lean `String`; the JavaScript string and
array operations used by the source (`split`, `join`, `slice`, out-of-bounds
array element assignment) are modelled explicitly below, at the level of
`List Char` / `List` so that all definitions compute by structural recursion.
-/

namespace Olfaction

/-- Model of JavaScript `undefined` / `null` / string values, as they flow
through the diff parser (`string | null` plus holes from sparse arrays). -/
inductive JsVal where
  | str (s : String)
  | null
  | undef
deriving DecidableEq, Repr

/-- `String.prototype.split(sep)` for a single-character separator,
on the character list: always returns at least one (possibly empty) chunk. -/
def splitChar (sep : Char) : List Char → List (List Char)
  | [] => [[]]
  | c :: rest =>
    match splitChar sep rest with
    | [] => if c = sep then [[], []] else [[c]]
    | s :: ss => if c = sep then [] :: s :: ss else (c :: s) :: ss

/-- `Array.prototype.join(sep)` for a single-character separator. -/
def joinChar (sep : Char) (chunks : List (List Char)) : List Char :=
  List.intercalate [sep] chunks

/-- JavaScript `String.prototype.split(sep)` on Lean strings. -/
def jsSplit (sep : Char) (s : String) : List String :=
  (splitChar sep s.data).map String.mk

/-- JavaScript `Array.prototype.join(sep)` on Lean strings. -/
def jsJoin (sep : Char) (chunks : List String) : String :=
  String.mk (joinChar sep (chunks.map String.data))

/-- JavaScript `Array.prototype.slice(s, e)` (also `String.prototype.slice`
via `.data`): negative indices count from the end, both ends are clamped. -/
def jsSlice (l : List α) (s e : Int) : List α :=
  let n : Int := l.length
  let s' : Int := if s < 0 then max (n + s) 0 else min s n
  let e' : Int := if e < 0 then max (n + e) 0 else min e n
  (l.take e'.toNat).drop s'.toNat

/-- JavaScript `String.prototype.startsWith`. -/
def jsStartsWith (s pre : String) : Bool :=
  pre.data.isPrefixOf s.data

/-- JavaScript array element assignment `l[i] = v`: in-bounds assignment
overwrites, out-of-bounds assignment extends the array with holes
(`undefined`) up to index `i`. -/
def jsArraySet (l : List JsVal) (i : Nat) (v : JsVal) : List JsVal :=
  if i < l.length then l.set i v
  else l ++ List.replicate (i - l.length) JsVal.undef ++ [v]

/-! ## Validators (`src/git.ts`) -/

/-- A lowercase hexadecimal digit, the character class `[a-f0-9]`. -/
def isHexLower (c : Char) : Bool :=
  ('a' ≤ c ∧ c ≤ 'f') ∨ ('0' ≤ c ∧ c ≤ '9')

/-- A lowercase alphanumeric character, the character class `[a-z0-9]`. -/
def isLowerAlnum (c : Char) : Bool :=
  ('a' ≤ c ∧ c ≤ 'z') ∨ ('0' ≤ c ∧ c ≤ '9')

/-- Unanchored regex test `/[p]{40}/.test(s)`: does the character list
contain a run of 40 consecutive characters satisfying `p`? -/
def hasRun40 (p : Char → Bool) : List Char → Bool
  | [] => false
  | c :: rest =>
    (((c :: rest).take 40).length = 40 ∧ ((c :: rest).take 40).all p)
      || hasRun40 p rest

/-- `validateObjectID` (src/git.ts:59-64): accepts exactly the strings on
which the (unanchored) regex `/[a-z0-9]{40}/` tests true, returning the
string unchanged, and throws otherwise. -/
def validateObjectID (value : String) : Except String String :=
  if hasRun40 isLowerAlnum value.data then .ok value
  else .error ("Not a valid Git object ID: " ++ value)

/-- The specification's object-ID well-formedness: exactly 40 characters,
each a lowercase hexadecimal digit (a full match of `[0-9a-f]{40}`). -/
def isFull40Hex (s : String) : Bool :=
  s.data.length = 40 ∧ s.data.all isHexLower

/-! ## Relative path validator (`validateRelativeRepoPath`, src/git.ts:66-75) -/

/-- One resolution step of Node's posix `normalizeString`: empty and `.`
segments are dropped, `..` pops the previous segment unless there is none or
it is itself a retained `..`, in which case `..` is kept only for relative
paths (`allowAboveRoot`). -/
def normSegStep (allowAboveRoot : Bool) (acc : List (List Char)) (seg : List Char) :
    List (List Char) :=
  if seg = [] ∨ seg = ['.'] then acc
  else if seg = ['.', '.'] then
    match acc.getLast? with
    | some last =>
      if last = ['.', '.'] then (if allowAboveRoot then acc ++ [seg] else acc)
      else acc.dropLast
    | none => if allowAboveRoot then acc ++ [seg] else acc
  else acc ++ [seg]

/-- Segment resolution of Node's posix `normalizeString`. -/
def normSegs (allowAboveRoot : Bool) (segs : List (List Char)) : List (List Char) :=
  segs.foldl (normSegStep allowAboveRoot) []

/-- Modelled from Node's documented `path.posix.normalize` (an external
library dependency of src/git.ts:67): resolve `.` and `..` segments and
collapse separators, preserving a trailing slash, returning `"."` for the
empty result of a relative path, and re-attaching the root slash of an
absolute path. -/
def posixNormalize (p : String) : String :=
  if p.data = [] then "."
  else
    let isAbs : Bool := p.data.head? == some '/'
    let trailing : Bool := p.data.getLast? == some '/'
    let body := joinChar '/' (normSegs (!isAbs) (splitChar '/' p.data))
    let body := if body = [] ∧ isAbs = false then ['.'] else body
    let body := if body ≠ [] ∧ trailing then body ++ ['/'] else body
    if isAbs then String.mk ('/' :: body) else String.mk body

/-- Matcher for `\.\.(\/|$)` at the start of the character list. -/
def dotdotAt : List Char → Bool
  | '.' :: '.' :: [] => true
  | '.' :: '.' :: '/' :: _ => true
  | _ => false

/-- Matcher for `\/\.\.(\/|$)` anywhere in the character list. -/
def dotdotSearch : List Char → Bool
  | [] => false
  | '/' :: rest => dotdotAt rest || dotdotSearch rest
  | _ :: rest => dotdotSearch rest

/-- The regex test `/(^|\/)\.\.(\/|$)/.test(value)` (src/git.ts:71). -/
def hasDotDotRef (s : String) : Bool :=
  dotdotAt s.data || dotdotSearch s.data

/-- `validateRelativeRepoPath` (src/git.ts:66-75): normalize, reject absolute
paths and paths containing a `..` reference, return the normalized form. -/
def validateRelativeRepoPath (value : String) : Except String String :=
  let value := posixNormalize value
  if value.data.head? = some '/' then .error "Path is absolute"
  else if hasDotDotRef value then .error "Path contains relative references"
  else .ok value

/-! ## Combined diff parser (`getCombinedCommitDifference`, src/git.ts:205-280) -/

/-- Modelled from the spec: `ChangeKind` (declared in src/models.ts, which is
not among the sources) is an enum of the single-letter git `--name-status`
change classifications {Added, Copied, Deleted, Modified, Renamed,
TypeChanged}; the parser casts status letters directly to it
(`as ChangeKind[]`), so it is modelled as the underlying character. -/
abbrev ChangeKind := Char

def ChangeKind.Added : ChangeKind := 'A'

def ChangeKind.Copied : ChangeKind := 'C'

def ChangeKind.Deleted : ChangeKind := 'D'

def ChangeKind.Modified : ChangeKind := 'M'

def ChangeKind.Renamed : ChangeKind := 'R'

def ChangeKind.TypeChanged : ChangeKind := 'T'

/-- One parsed file difference of a combined diff
(`CombinedFileDifference`, src/models.ts, shape as used by the parser). -/
structure CombinedFileDifference where
  changeKinds : List ChangeKind
  headPath : JsVal
  basePaths : List JsVal
deriving DecidableEq, Repr

/-- The `for (const [baseIndex, changeKind] of changeKinds.entries())` loop of
`getCombinedCommitDifference` (src/git.ts:252-265): `Added` at index `i` nulls
`basePaths[i]`, `Deleted` anywhere nulls `headPath`. -/
def applyChangeKinds : Nat → List ChangeKind → JsVal × List JsVal → JsVal × List JsVal
  | _, [], s => s
  | i, k :: ks, (headPath, basePaths) =>
    applyChangeKinds (i + 1) ks <|
      if k = ChangeKind.Added then (headPath, jsArraySet basePaths i JsVal.null)
      else if k = ChangeKind.Deleted then (JsVal.null, basePaths)
      else (headPath, basePaths)

/-- `gitChangeKinds.replace(/\d/g, '').split('') as ChangeKind[]`
(src/git.ts:243-246): the status field (the part before the first tab) with
similarity-score digits stripped, as a list of single-letter change kinds. -/
def diffLineKinds (fileLine : String) : List ChangeKind :=
  ((jsSplit '\t' fileLine).getD 0 "").data.filter fun c => !c.isDigit

/-- `let headPath: string | null = gitHeadPath` (src/git.ts:242,247): the
second tab-separated field, or JavaScript `undefined` if the line has no
tab. -/
def diffLineHeadPath0 (fileLine : String) : JsVal :=
  match (jsSplit '\t' fileLine).get? 1 with
  | some s => JsVal.str s
  | none => JsVal.undef

/-- `gitBasePaths.length > 0 ? gitBasePaths : [headPath]`
(src/git.ts:250-251): the explicit base paths (fields after the second tab),
defaulting to the single head path when git emits none. -/
def diffLineBasePaths0 (fileLine : String) : List JsVal :=
  if ((jsSplit '\t' fileLine).drop 2).length > 0 then
    ((jsSplit '\t' fileLine).drop 2).map JsVal.str
  else [diffLineHeadPath0 fileLine]

/-- The per-file-line decoder of `getCombinedCommitDifference`
(src/git.ts:241-266): split on tabs, strip similarity digits from the status
field, default the base paths to the head path when git emits none, then
apply the change kinds. -/
def parseCombinedDiffLine (fileLine : String) : CombinedFileDifference :=
  let s := applyChangeKinds 0 (diffLineKinds fileLine)
    (diffLineHeadPath0 fileLine, diffLineBasePaths0 fileLine)
  { changeKinds := diffLineKinds fileLine, headPath := s.1, basePaths := s.2 }

/-- The per-commit-chunk decoder of `getCombinedCommitDifference`
(src/git.ts:237-268): first line is the commit oid, the remaining non-empty
lines are file changes. -/
def parseCombinedDiffChunk (commitChunk : String) : String × List CombinedFileDifference :=
  let parts := jsSplit '\n' commitChunk
  let oid := parts.getD 0 ""
  let fileLines := parts.drop 1
  (oid, (fileLines.filter fun l => l ≠ "").map parseCombinedDiffLine)

/-! ## Commit record parser (`parseCommit`, src/git.ts:108-162) -/

/-- `Signature` (src/models.ts shape as produced by `parseCommit`). -/
structure Signature where
  name : String
  email : String
  date : String
deriving DecidableEq, Repr

/-- `Commit` (src/models.ts shape as produced by `parseCommit`). -/
structure Commit where
  oid : String
  parents : List String
  author : Signature
  committer : Signature
  message : String
deriving DecidableEq, Repr

/-- `commitFormat` (src/git.ts:120-130): the `git show`/`git log` field
template — oid, parent hashes, author name/email/date, committer
name/email/date, raw body, joined by `%n` (newline). -/
def commitFormat : String :=
  "%H%n%P%n%aN%n%aE%n%aI%n%cN%n%cE%n%cI%n%B"

/-- Modelled from the spec (§4.3) and `commitFormat`: the chunk git emits for
one commit under the field template — the fixed fields joined by newlines,
where `%P` expands to the space-separated parent hashes and `%B` to the raw
(possibly multi-line) message. -/
def encodeCommitChunk (c : Commit) : String :=
  jsJoin '\n'
    [c.oid, jsJoin ' ' c.parents, c.author.name, c.author.email, c.author.date,
      c.committer.name, c.committer.email, c.committer.date, c.message]

/-- `parseCommit` (src/git.ts:135-162): split the chunk into lines,
destructure the eight fixed fields, treat the remaining lines as the message.
A missing line yields JavaScript `undefined` under destructuring; the
`"undefined"` stand-in used here is never reached on chunks with at least
eight lines. -/
def parseCommit (chunk : String) : Commit :=
  let ls := jsSplit '\n' chunk
  { oid := ls.getD 0 "undefined"
    parents :=
      if ls.getD 1 "undefined" = "" then [] else jsSplit ' ' (ls.getD 1 "undefined")
    author :=
      { name := ls.getD 2 "undefined", email := ls.getD 3 "undefined",
        date := ls.getD 4 "undefined" }
    committer :=
      { name := ls.getD 5 "undefined", email := ls.getD 6 "undefined",
        date := ls.getD 7 "undefined" }
    message := jsJoin '\n' (ls.drop 8) }

/-! ## History walk error classification (`log`, src/git.ts:411-465) -/

/-- The shape of an `execa` process failure as inspected by the error
handlers: kill flag, `code` (spawn error code such as `ENOENT`), exit status
and captured stderr. -/
structure ExecError where
  killed : Bool
  code : Option String
  exitCode : Option Int
  stderr : Option String
deriving DecidableEq, Repr

/-- The domain error taxonomy reachable from `log`'s `catchWith` handler
(src/errors.ts / src/abort.ts names), plus the rethrow of an unclassified
failure. -/
inductive GitError where
  | abortError
  | unknownRepository (repository : String)
  | unknownCommit (repository commit : String)
  | unknownRevision (repository revision : String)
  | rethrown (err : ExecError)
deriving DecidableEq, Repr

/-- `err.stderr?.startsWith(p)`: optional chaining makes an absent stderr
falsy. -/
def stderrStarts (e : ExecError) (p : String) : Bool :=
  match e.stderr with
  | some s => jsStartsWith s p
  | none => false

/-- The `catchWith` error classification of the `log` history walk
(src/git.ts:447-461), applied in source order. -/
def classifyLogError (repository startRevision : String) (e : ExecError) : GitError :=
  if e.killed then .abortError
  else if e.code = some "ENOENT" then .unknownRepository repository
  else if e.exitCode = some 128 ∧ stderrStarts e "fatal: bad object" then
    .unknownCommit repository startRevision
  else if e.exitCode = some 128 ∧ stderrStarts e "fatal: bad revision" then
    .unknownRevision repository startRevision
  else .rethrown e

/-! ## Location content resolver (`LocationResolver.content`, src/routes/graphql.ts:1046-1061) -/

/-- `Position` (0-based line/character). -/
structure Position where
  line : Nat
  character : Nat
deriving DecidableEq, Repr

/-- `Range` with inclusive start and exclusive end. -/
structure Range where
  start : Position
  stop : Position
deriving DecidableEq, Repr

/-- JavaScript one-argument `slice(s)`: from index `s` to the end. -/
def jsSliceFrom (l : List α) (s : Int) : List α :=
  jsSlice l s l.length

/-- The pure range slicing performed by `LocationResolver.content`
(src/routes/graphql.ts:1051-1060) on the decoded file content: select the
lines of the range, then cut the first line from `start.character` and —
as written in the source — cut the last line *from* `end.character`
(one-argument `slice`). -/
def locationContent (content : String) (range : Range) : String :=
  let lines := jsSlice (jsSplit '\n' content) range.start.line (range.stop.line + 1)
  if lines.length = 0 then ""
  else if lines.length = 1 then
    String.mk (jsSlice (lines.getD 0 "").data range.start.character range.stop.character)
  else
    let first := String.mk (jsSliceFrom (lines.getD 0 "").data range.start.character)
    let last := String.mk
      (jsSliceFrom (lines.getD (lines.length - 1) "").data range.stop.character)
    jsJoin '\n' ((lines.set 0 first).set (lines.length - 1) last)

/-- The specified range extraction (spec §3: positions 0-based, end
exclusive): the text from the start position (inclusive) to the end position
(exclusive), i.e. the last selected line truncated *before*
`end.character`. -/
def specRangeContent (content : String) (range : Range) : String :=
  let lines := jsSlice (jsSplit '\n' content) range.start.line (range.stop.line + 1)
  if lines.length = 0 then ""
  else if lines.length = 1 then
    String.mk (jsSlice (lines.getD 0 "").data range.start.character range.stop.character)
  else
    let first := String.mk ((lines.getD 0 "").data.drop range.start.character)
    let last := String.mk ((lines.getD (lines.length - 1) "").data.take range.stop.character)
    jsJoin '\n' ((lines.set 0 first).set (lines.length - 1) last)

/-! ## Code smell predecessor / successor resolvers (src/routes/graphql.ts:994-1022) -/

/-- The fields of a persisted code smell detection used by the
predecessor/successor resolvers: its lifespan ID and its ordinal within the
lifespan. -/
structure CodeSmell where
  id : String
  lifespan : String
  ordinal : Int
deriving DecidableEq, Repr

/-- The loader failure observed by the resolvers: `UnknownCodeSmellError`, or
any other error. -/
inductive LoaderError where
  | unknownCodeSmell (lifespan : String) (ordinal : Int)
  | other (msg : String)
deriving DecidableEq, Repr

/-- Modelled from the spec (§3, design note on ordinal lookups): the
`loaders.codeSmell.byOrdinal` data loader (declared in src/loaders.ts, which
is not among the sources) resolves the detection of the given lifespan with
the given ordinal and fails with `UnknownCodeSmellError` when no such
detection exists. -/
def byOrdinal (store : List CodeSmell) (lifespan : String) (ordinal : Int) :
    Except LoaderError CodeSmell :=
  match store.find? fun cs => cs.lifespan == lifespan && cs.ordinal == ordinal with
  | some cs => .ok cs
  | none => .error (.unknownCodeSmell lifespan ordinal)

/-- `CodeSmellResolver.predecessor` (src/routes/graphql.ts:994-1007): load
ordinal − 1 of the same lifespan, mapping `UnknownCodeSmellError` to null and
rethrowing anything else. -/
def predecessor (store : List CodeSmell) (cs : CodeSmell) :
    Except LoaderError (Option CodeSmell) :=
  match byOrdinal store cs.lifespan (cs.ordinal - 1) with
  | .ok c => .ok (some c)
  | .error (.unknownCodeSmell _ _) => .ok none
  | .error e => .error e

/-- `CodeSmellResolver.successor` (src/routes/graphql.ts:1009-1022): load
ordinal + 1 of the same lifespan, mapping `UnknownCodeSmellError` to null and
rethrowing anything else. -/
def successor (store : List CodeSmell) (cs : CodeSmell) :
    Except LoaderError (Option CodeSmell) :=
  match byOrdinal store cs.lifespan (cs.ordinal + 1) with
  | .ok c => .ok (some c)
  | .error (.unknownCodeSmell _ _) => .ok none
  | .error e => .error e

/-! ## Batch commit fetch (`getCommits`, src/git.ts:164-202) -/

/-- Modelled from the spec (§6): `git rev-list --ignore-missing --no-walk
--stdin` echoes exactly the candidate IDs that name existing commits, in
input order. -/
def revListIgnoreMissing (repo : List Commit) (oids : List String) : List String :=
  oids.filter fun oid => repo.any fun c => c.oid == oid

/-- `filterValidCommits` (src/git.ts:29-57): pre-filter the candidates with
the (unanchored) regex `/[a-f0-9]{40}/`, then keep the ones the repository
knows. -/
def filterValidCommits (repo : List Commit) (commitOids : List String) : List String :=
  revListIgnoreMissing repo (commitOids.filter fun c => hasRun40 isHexLower c.data)

/-- Modelled from the spec (§6): `git show --no-patch --format=<template>`
prints one`commitFormat` chunk per requested oid, which `parseCommit`
decodes back to the stored record. -/
def showCommits (repo : List Commit) (oids : List String) : List Commit :=
  oids.filterMap fun oid => repo.find? fun c => c.oid == oid

/-- `keyBy` (src/util.ts, not among the sources; modelled from the spec as
building a map keyed by the supplied key function — here `c => c.oid`). -/
def keyBy (cs : List Commit) : List (String × Commit) :=
  cs.map fun c => (c.oid, c)

/-- `getCommits` (src/git.ts:164-202) over an abstract repository state:
bulk-validate the requested oids first (because `git show` fails hard on bad
revisions), parse the resulting chunks and key them by oid; a missing
repository is reported as `UnknownRepositoryError`. -/
def getCommits (repoExists : Bool) (repository : String) (repo : List Commit)
    (commitOids : List String) : Except GitError (List (String × Commit)) :=
  if repoExists then .ok (keyBy (showCommits repo (filterValidCommits repo commitOids)))
  else .error (.unknownRepository repository)

/-! ## Batch content reader (`getFileContents`, src/git.ts:282-320) -/

/-- `'>>>' + fileStrings[fileStringIndex]` (src/git.ts:302): the expected
boundary marker for the current request; a JavaScript out-of-range index
yields `undefined`, concatenated as the text `"undefined"`. -/
def gfcMarker (fileStrings : List String) (i : Nat) : String :=
  ">>>" ++ fileStrings.getD i "undefined"

/-- The scanning loop of `getFileContents` (src/git.ts:297-312): walk the
output lines; on the expected boundary marker push the slice of the lines
from `start` up to (and excluding) the line just before the marker, joined
with newlines; on the marker with the ` missing` tag push null; any other
line is accumulated implicitly by advancing `lineNo` only. -/
def gfcGo (fileStrings lines : List String) :
    Nat → Nat → Nat → List (Option String) → List String → List (Option String)
  | _, _, _, contents, [] => contents
  | lineNo, fileStringIndex, start, contents, line :: rest =>
    if line = gfcMarker fileStrings fileStringIndex then
      gfcGo fileStrings lines (lineNo + 1) (fileStringIndex + 1) (lineNo + 1)
        (contents ++
          [some (jsJoin '\n' (jsSlice lines (start : Int) ((lineNo : Int) - 1)))])
        rest
    else if line = gfcMarker fileStrings fileStringIndex ++ " missing" then
      gfcGo fileStrings lines (lineNo + 1) (fileStringIndex + 1) (lineNo + 1)
        (contents ++ [none]) rest
    else gfcGo fileStrings lines (lineNo + 1) fileStringIndex start contents rest

/-- `getFileContents` (src/git.ts:282-320), its pure decoding part: split the
batch output into lines and run the scanning loop. -/
def getFileContents (fileStrings : List String) (stdout : String) :
    List (Option String) :=
  let lines := jsSplit '\n' stdout
  gfcGo fileStrings lines 0 0 0 [] lines

/-- Modelled from the spec (§4.5, §6): the region one request contributes to
the `cat-file --batch` response stream — for a present object its content
lines, the empty line produced by the newline git appends after object
content, and the echoed boundary marker `>>>` + id; for an absent object
just the marker with the ` missing` tag. -/
def gfcRegion (fileString : String) : Option String → List String
  | some content => jsSplit '\n' content ++ ["", ">>>" ++ fileString]
  | none => [">>>" ++ fileString ++ " missing"]

/-- The full response stream for an ordered list of (id, content?) specs. -/
def gfcStream (specs : List (String × Option String)) : List String :=
  (specs.map fun sp => gfcRegion sp.1 sp.2).flatten

/-- The response stream as the single stdout string the process returns. -/
def gfcStdout (specs : List (String × Option String)) : String :=
  jsJoin '\n' (gfcStream specs)

/-! ## Lemmas about the JavaScript array model -/

theorem jsArraySet_length (l : List JsVal) (i : Nat) (v : JsVal) :
    (jsArraySet l i v).length = max l.length (i + 1) := by
  unfold jsArraySet
  split
  · rw [List.length_set]; omega
  · simp only [List.length_append, List.length_replicate, List.length_cons,
      List.length_nil]
    omega

theorem jsArraySet_getElem_self (l : List JsVal) (i : Nat) (v : JsVal) :
    (jsArraySet l i v)[i]? = some v := by
  unfold jsArraySet
  split
  · exact List.getElem?_set_self (by assumption)
  · rename_i h
    rw [List.append_assoc, List.getElem?_append_right (Nat.le_of_not_lt h),
      List.getElem?_append_right (by simp)]
    simp [List.length_replicate]

theorem jsArraySet_getElem_lt (l : List JsVal) (i : Nat) (v : JsVal) (pos : Nat)
    (hne : pos ≠ i) (hlen : pos < l.length) :
    (jsArraySet l i v)[pos]? = l[pos]? := by
  unfold jsArraySet
  split
  · exact List.getElem?_set_ne (Ne.symm hne)
  · rw [List.append_assoc, List.getElem?_append_left hlen]

/-! ## Lemmas about the change-kind loop -/

theorem applyChangeKinds_cons (k : ChangeKind) (ks : List ChangeKind) (i : Nat)
    (hd : JsVal) (b : List JsVal) :
    applyChangeKinds i (k :: ks) (hd, b) =
      applyChangeKinds (i + 1) ks
        (if k = ChangeKind.Added then (hd, jsArraySet b i JsVal.null)
          else if k = ChangeKind.Deleted then (JsVal.null, b) else (hd, b)) := rfl

theorem applyChangeKinds_headPath (ks : List ChangeKind) (i : Nat) (s : JsVal × List JsVal) :
    (applyChangeKinds i ks s).1 =
      if ChangeKind.Deleted ∈ ks then JsVal.null else s.1 := by
  induction ks generalizing i s with
  | nil => simp [applyChangeKinds]
  | cons k ks ih =>
    obtain ⟨h, b⟩ := s
    rw [applyChangeKinds_cons]
    by_cases hk : k = ChangeKind.Deleted
    · rw [if_neg (by rw [hk]; decide), if_pos hk, ih]
      simp [hk, List.mem_cons]
    · by_cases ha : k = ChangeKind.Added
      · rw [if_pos ha, ih]
        simp [List.mem_cons, Ne.symm hk]
      · rw [if_neg ha, if_neg hk, ih]
        simp [List.mem_cons, Ne.symm hk]

theorem applyChangeKinds_length (ks : List ChangeKind) (i : Nat) (s : JsVal × List JsVal)
    (h : i + ks.length ≤ s.2.length) :
    (applyChangeKinds i ks s).2.length = s.2.length := by
  induction ks generalizing i s with
  | nil => rfl
  | cons k ks ih =>
    obtain ⟨hd, b⟩ := s
    simp only [List.length_cons] at h
    rw [applyChangeKinds_cons]
    by_cases ha : k = ChangeKind.Added
    · rw [if_pos ha, ih _ _ (by simp only [jsArraySet_length]; omega)]
      simp only [jsArraySet_length]
      omega
    · rw [if_neg ha]
      by_cases hk : k = ChangeKind.Deleted
      · rw [if_pos hk, ih _ _ (by simpa using by omega)]
      · rw [if_neg hk, ih _ _ (by simpa using by omega)]

theorem applyChangeKinds_basePaths_stable (ks : List ChangeKind) (i : Nat)
    (s : JsVal × List JsVal) (pos : Nat) (hpos : pos < i) (hlen : pos < s.2.length) :
    (applyChangeKinds i ks s).2[pos]? = s.2[pos]? := by
  induction ks generalizing i s with
  | nil => rfl
  | cons k ks ih =>
    obtain ⟨hd, b⟩ := s
    rw [applyChangeKinds_cons]
    by_cases ha : k = ChangeKind.Added
    · rw [if_pos ha,
        ih _ _ (by omega) (by simp only [jsArraySet_length]; omega)]
      exact jsArraySet_getElem_lt b i JsVal.null pos (by omega) hlen
    · rw [if_neg ha]
      by_cases hk : k = ChangeKind.Deleted
      · rw [if_pos hk]
        exact ih _ _ (by omega) hlen
      · rw [if_neg hk]
        exact ih _ _ (by omega) hlen

theorem applyChangeKinds_added (ks : List ChangeKind) (i : Nat) (s : JsVal × List JsVal)
    (j : Nat) (hj : ks[j]? = some ChangeKind.Added) :
    (applyChangeKinds i ks s).2[i + j]? = some JsVal.null := by
  induction ks generalizing i s j with
  | nil => simp at hj
  | cons k ks ih =>
    obtain ⟨hd, b⟩ := s
    rw [applyChangeKinds_cons]
    cases j with
    | zero =>
      simp only [List.getElem?_cons_zero, Option.some.injEq] at hj
      rw [if_pos hj]
      rw [applyChangeKinds_basePaths_stable ks (i + 1) _ (i + 0) (by omega)
        (by simp only [jsArraySet_length]; omega)]
      simpa using jsArraySet_getElem_self b i JsVal.null
    | succ j =>
      simp only [List.getElem?_cons_succ] at hj
      have harith : i + (j + 1) = (i + 1) + j := by omega
      rw [harith]
      by_cases ha : k = ChangeKind.Added
      · rw [if_pos ha]
        exact ih (i + 1) _ j hj
      · rw [if_neg ha]
        by_cases hk : k = ChangeKind.Deleted
        · rw [if_pos hk]
          exact ih (i + 1) _ j hj
        · rw [if_neg hk]
          exact ih (i + 1) _ j hj

/-! ## Lemmas relating the `..`-reference regex to path segments -/

theorem splitChar_ne_nil (sep : Char) (l : List Char) : splitChar sep l ≠ [] := by
  cases l with
  | nil => simp [splitChar]
  | cons c rest =>
    rw [splitChar]
    cases splitChar sep rest <;> by_cases hc : c = sep <;> simp [hc]

theorem splitChar_head (sep : Char) (l : List Char) :
    (splitChar sep l).head? = some (l.takeWhile fun c => c != sep) := by
  induction l with
  | nil => rfl
  | cons c rest ih =>
    rw [splitChar]
    cases hs : splitChar sep rest with
    | nil => exact absurd hs (splitChar_ne_nil sep rest)
    | cons s ss =>
      rw [hs] at ih
      simp only [List.head?_cons, Option.some.injEq] at ih
      by_cases hc : c = sep
      · simp [hc, List.takeWhile_cons]
      · simp [hc, List.takeWhile_cons, ih]

theorem splitChar_tail_cons_ne (sep c : Char) (rest : List Char) (hc : c ≠ sep) :
    (splitChar sep (c :: rest)).tail = (splitChar sep rest).tail := by
  rw [splitChar]
  cases hs : splitChar sep rest with
  | nil => exact absurd hs (splitChar_ne_nil sep rest)
  | cons s ss => simp [hc]

theorem splitChar_cons_self (sep : Char) (rest : List Char) :
    splitChar sep (sep :: rest) = [] :: splitChar sep rest := by
  rw [splitChar]
  cases hs : splitChar sep rest with
  | nil => exact absurd hs (splitChar_ne_nil sep rest)
  | cons s ss => simp

theorem dotdotSearch_cons (c : Char) (rest : List Char) :
    dotdotSearch (c :: rest) =
      if c = '/' then dotdotAt rest || dotdotSearch rest else dotdotSearch rest := by
  by_cases hc : c = '/'
  · rw [if_pos hc, hc]
    rfl
  · rw [if_neg hc, dotdotSearch.eq_def]
    split
    · rename_i heq
      exact absurd heq (List.cons_ne_nil c rest)
    · rename_i heq
      exact absurd (List.cons.inj heq).1 hc
    · rename_i x xs heq
      exact congrArg dotdotSearch (List.cons.inj heq).2.symm

theorem takeWhile_slash_eq_nil {l : List Char}
    (h : (l.takeWhile fun c => c != '/') = []) : l = [] ∨ ∃ t, l = '/' :: t := by
  cases l with
  | nil => exact Or.inl rfl
  | cons c t =>
    rw [List.takeWhile_cons] at h
    by_cases hc : c = '/'
    · exact Or.inr ⟨t, by rw [hc]⟩
    · simp [hc] at h

theorem dotdotAt_iff (l : List Char) :
    dotdotAt l = true ↔ (l.takeWhile fun c => c != '/') = ['.', '.'] := by
  rw [dotdotAt.eq_def]
  split
  · simp [List.takeWhile_cons]
  · simp [List.takeWhile_cons]
  · rename_i h1 h2
    simp only [Bool.false_eq_true, false_iff]
    intro h
    cases l with
    | nil => simp at h
    | cons c1 t1 =>
      rw [List.takeWhile_cons] at h
      by_cases hc1 : c1 = '/'
      · simp [hc1] at h
      · rw [if_pos (by simp [hc1] : (c1 != '/') = true)] at h
        obtain ⟨hc1', h⟩ := List.cons.inj h
        cases t1 with
        | nil => simp at h
        | cons c2 t2 =>
          rw [List.takeWhile_cons] at h
          by_cases hc2 : c2 = '/'
          · simp [hc2] at h
          · rw [if_pos (by simp [hc2] : (c2 != '/') = true)] at h
            obtain ⟨hc2', h⟩ := List.cons.inj h
            rcases takeWhile_slash_eq_nil h with rfl | ⟨t, rfl⟩
            · exact h1 (by rw [hc1', hc2'])
            · exact h2 t (by rw [hc1', hc2'])

theorem dotdotSearch_iff (l : List Char) :
    dotdotSearch l = true ↔ ['.', '.'] ∈ (splitChar '/' l).tail := by
  induction l with
  | nil => simp [dotdotSearch, splitChar]
  | cons c rest ih =>
    rw [dotdotSearch_cons]
    by_cases hc : c = '/'
    · rw [if_pos hc, hc, splitChar_cons_self, List.tail_cons]
      cases hs : splitChar '/' rest with
      | nil => exact absurd hs (splitChar_ne_nil '/' rest)
      | cons s ss =>
        have hhead := splitChar_head '/' rest
        rw [hs] at hhead
        simp only [List.head?_cons, Option.some.injEq] at hhead
        rw [hs] at ih
        simp only [Bool.or_eq_true, List.mem_cons, ih, dotdotAt_iff, ← hhead]
        tauto
    · rw [if_neg hc, splitChar_tail_cons_ne '/' c rest hc]
      exact ih

/-! ## Split / join algebra -/

theorem joinChar_singleton (sep : Char) (x : List Char) : joinChar sep [x] = x := by
  simp [joinChar, List.intercalate]

theorem joinChar_cons_cons (sep : Char) (x y : List Char) (xs : List (List Char)) :
    joinChar sep (x :: y :: xs) = x ++ sep :: joinChar sep (y :: xs) := by
  simp [joinChar, List.intercalate, List.intersperse_cons_cons]

theorem splitChar_no_sep (sep : Char) (l : List Char) (h : sep ∉ l) :
    splitChar sep l = [l] := by
  induction l with
  | nil => rfl
  | cons c rest ih =>
    have hc : ¬c = sep := fun e => h (e ▸ List.mem_cons_self c rest)
    rw [splitChar, ih fun hm => h (List.mem_cons_of_mem c hm)]
    simp [hc]

theorem splitChar_append_cons (sep : Char) (a rest : List Char) (h : sep ∉ a) :
    splitChar sep (a ++ sep :: rest) = a :: splitChar sep rest := by
  induction a with
  | nil => simpa using splitChar_cons_self sep rest
  | cons c a ih =>
    have hc : ¬c = sep := fun e => h (e ▸ List.mem_cons_self c a)
    rw [List.cons_append, splitChar, ih fun hm => h (List.mem_cons_of_mem c hm)]
    simp [hc]

theorem splitChar_joinChar (sep : Char) (chunks : List (List Char))
    (hne : chunks ≠ []) (h : ∀ ch ∈ chunks, sep ∉ ch) :
    splitChar sep (joinChar sep chunks) = chunks := by
  induction chunks with
  | nil => exact absurd rfl hne
  | cons x xs ih =>
    cases xs with
    | nil =>
      rw [joinChar_singleton]
      exact splitChar_no_sep sep x (h x (by simp))
    | cons y ys =>
      rw [joinChar_cons_cons, splitChar_append_cons sep x _ (h x (by simp)),
        ih (by simp) fun ch hm => h ch (List.mem_cons_of_mem x hm)]

theorem splitChar_joinChar_with_tail (sep : Char) (chunks : List (List Char))
    (last : List Char) (h : ∀ ch ∈ chunks, sep ∉ ch) :
    splitChar sep (joinChar sep (chunks ++ [last])) = chunks ++ splitChar sep last := by
  induction chunks with
  | nil => simp [joinChar_singleton]
  | cons x xs ih =>
    obtain ⟨y, ys, hyy⟩ : ∃ y ys, xs ++ [last] = y :: ys := by
      cases xs <;> exact ⟨_, _, rfl⟩
    rw [List.cons_append, hyy, joinChar_cons_cons, ← hyy,
      splitChar_append_cons sep x _ (h x (by simp)),
      ih fun ch hm => h ch (List.mem_cons_of_mem x hm), List.cons_append]

theorem splitChar_cons_of_ne (sep c : Char) (rest s : List Char) (ss : List (List Char))
    (hc : c ≠ sep) (hs : splitChar sep rest = s :: ss) :
    splitChar sep (c :: rest) = (c :: s) :: ss := by
  rw [splitChar, hs]
  simp [hc]

theorem joinChar_splitChar (sep : Char) (l : List Char) :
    joinChar sep (splitChar sep l) = l := by
  induction l with
  | nil => rfl
  | cons c rest ih =>
    cases hs : splitChar sep rest with
    | nil => exact absurd hs (splitChar_ne_nil sep rest)
    | cons s ss =>
      rw [hs] at ih
      by_cases hc : c = sep
      · rw [hc, splitChar_cons_self, hs, joinChar_cons_cons, ih]
        simp
      · rw [splitChar_cons_of_ne sep c rest s ss hc hs]
        cases ss with
        | nil =>
          rw [joinChar_singleton]
          rw [joinChar_singleton] at ih
          rw [ih]
        | cons s2 ss2 =>
          rw [joinChar_cons_cons]
          rw [joinChar_cons_cons] at ih
          rw [← ih]
          simp

theorem mem_joinChar {sep y : Char} {chunks : List (List Char)}
    (hy : y ∈ joinChar sep chunks) : y = sep ∨ ∃ ch ∈ chunks, y ∈ ch := by
  induction chunks with
  | nil => simp [joinChar, List.intercalate] at hy
  | cons x xs ih =>
    cases xs with
    | nil =>
      rw [joinChar_singleton] at hy
      exact Or.inr ⟨x, by simp, hy⟩
    | cons z zs =>
      rw [joinChar_cons_cons] at hy
      rcases List.mem_append.mp hy with hx | hrest
      · exact Or.inr ⟨x, by simp, hx⟩
      · rcases List.mem_cons.mp hrest with rfl | hmem
        · exact Or.inl rfl
        · rcases ih hmem with h1 | ⟨ch, hch, hy2⟩
          · exact Or.inl h1
          · exact Or.inr ⟨ch, List.mem_cons_of_mem x hch, hy2⟩

theorem string_mk_data (s : String) : String.mk s.data = s := rfl

theorem jsSplit_jsJoin (sep : Char) (l : List String) (hne : l ≠ [])
    (h : ∀ p ∈ l, sep ∉ p.data) : jsSplit sep (jsJoin sep l) = l := by
  show (splitChar sep (joinChar sep (l.map String.data))).map String.mk = l
  rw [splitChar_joinChar sep _ (by simpa using hne) (by
    intro ch hm
    obtain ⟨q, hq, rfl⟩ := List.mem_map.mp hm
    exact h q hq), List.map_map]
  have hid : (String.mk ∘ String.data) = id := rfl
  rw [hid, List.map_id]

theorem jsJoin_jsSplit (sep : Char) (s : String) :
    jsJoin sep (jsSplit sep s) = s := by
  show String.mk (joinChar sep (((splitChar sep s.data).map String.mk).map String.data)) = s
  rw [List.map_map]
  have hid : (String.data ∘ String.mk) = id := rfl
  rw [hid, List.map_id, joinChar_splitChar]

theorem jsJoin_cons_ne_empty (sep : Char) (p : String) (ps : List String)
    (hp : p ≠ "") : jsJoin sep (p :: ps) ≠ "" := by
  intro h
  have hd : joinChar sep ((p :: ps).map String.data) = [] := congrArg String.data h
  cases ps with
  | nil =>
    rw [show (p :: []).map String.data = [p.data] from rfl, joinChar_singleton] at hd
    exact hp (by rw [← string_mk_data p, hd])
  | cons q qs =>
    rw [show ((p :: q :: qs).map String.data) =
        p.data :: q.data :: (qs.map String.data) from rfl, joinChar_cons_cons] at hd
    rcases List.append_eq_nil.mp hd with ⟨-, h2⟩
    exact List.cons_ne_nil _ _ h2

theorem hasDotDotRef_iff (s : String) :
    hasDotDotRef s = true ↔ ['.', '.'] ∈ splitChar '/' s.data := by
  rw [hasDotDotRef]
  cases hs : splitChar '/' s.data with
  | nil => exact absurd hs (splitChar_ne_nil '/' s.data)
  | cons s0 ss =>
    have hhead := splitChar_head '/' s.data
    have htail := dotdotSearch_iff s.data
    rw [hs] at hhead htail
    simp only [List.head?_cons, Option.some.injEq] at hhead
    simp only [List.tail_cons] at htail
    simp only [Bool.or_eq_true, List.mem_cons, htail, dotdotAt_iff, ← hhead]
    tauto

/-! ## Lemmas about the batch content reader -/

theorem sep_not_mem_splitChar (sep : Char) (l : List Char) :
    ∀ ch ∈ splitChar sep l, sep ∉ ch := by
  induction l with
  | nil =>
    intro ch hch
    simp only [splitChar, List.mem_singleton] at hch
    simp [hch]
  | cons c rest ih =>
    intro ch hch
    cases hs : splitChar sep rest with
    | nil => exact absurd hs (splitChar_ne_nil sep rest)
    | cons s ss =>
      by_cases hc : c = sep
      · rw [hc, splitChar_cons_self] at hch
        rcases List.mem_cons.mp hch with rfl | hmem
        · simp
        · exact ih ch hmem
      · rw [splitChar_cons_of_ne sep c rest s ss hc hs] at hch
        rcases List.mem_cons.mp hch with rfl | hmem
        · intro hmem2
          rcases List.mem_cons.mp hmem2 with heq | hmem3
          · exact hc heq.symm
          · exact ih s (by rw [hs]; exact List.mem_cons_self s ss) hmem3
        · exact ih ch (by rw [hs]; exact List.mem_cons_of_mem s hmem)

theorem sep_not_mem_jsSplit (sep : Char) (s : String) :
    ∀ line ∈ jsSplit sep s, sep ∉ line.data := by
  intro line hline
  obtain ⟨ch, hch, rfl⟩ := List.mem_map.mp hline
  exact sep_not_mem_splitChar sep s.data ch hch

theorem gfcStream_no_newline (specs : List (String × Option String))
    (hnl : ∀ sp ∈ specs, '\n' ∉ sp.1.data) :
    ∀ line ∈ gfcStream specs, '\n' ∉ line.data := by
  intro line hline
  obtain ⟨lns, hlns, hmem⟩ := List.mem_flatten.mp hline
  obtain ⟨sp, hsp, rfl⟩ := List.mem_map.mp hlns
  cases hoc : sp.2 with
  | some c =>
    rw [hoc] at hmem
    simp only [gfcRegion] at hmem
    rcases List.mem_append.mp hmem with h1 | h2
    · exact sep_not_mem_jsSplit '\n' c line h1
    · rcases List.mem_cons.mp h2 with rfl | h3
      · simp
      · rw [List.mem_singleton.mp h3]
        intro hmem2
        rw [String.data_append] at hmem2
        rcases List.mem_append.mp hmem2 with h4 | h5
        · exact absurd h4 (by decide)
        · exact hnl sp hsp h5
  | none =>
    rw [hoc] at hmem
    simp only [gfcRegion] at hmem
    rw [List.mem_singleton.mp hmem]
    intro hmem2
    rw [String.data_append, String.data_append] at hmem2
    rcases List.mem_append.mp hmem2 with h4 | h5
    · rcases List.mem_append.mp h4 with h6 | h7
      · exact absurd h6 (by decide)
      · exact hnl sp hsp h7
    · exact absurd h5 (by decide)

theorem gfcStream_cons (sp : String × Option String)
    (rest : List (String × Option String)) :
    gfcStream (sp :: rest) = gfcRegion sp.1 sp.2 ++ gfcStream rest := by
  simp [gfcStream]

theorem gfcMarker_ne_empty (fileStrings : List String) (i : Nat) :
    gfcMarker fileStrings i ≠ "" := by
  intro h
  have hd := congrArg String.data h
  rw [gfcMarker, String.data_append] at hd
  simp at hd

theorem gfcMarker_ne_missing (fileStrings : List String) (i : Nat) :
    gfcMarker fileStrings i ≠ gfcMarker fileStrings i ++ " missing" := by
  intro h
  have hd : (gfcMarker fileStrings i).data.length =
      (gfcMarker fileStrings i ++ " missing").data.length := by rw [← h]
  rw [String.data_append, List.length_append] at hd
  have h8 : (" missing".data.length) = 8 := by decide
  omega

theorem gfcGo_skip (fileStrings lines block rest : List String)
    (lineNo idx start : Nat) (acc : List (Option String))
    (hblock : ∀ line ∈ block, line ≠ gfcMarker fileStrings idx ∧
      line ≠ gfcMarker fileStrings idx ++ " missing") :
    gfcGo fileStrings lines lineNo idx start acc (block ++ rest) =
      gfcGo fileStrings lines (lineNo + block.length) idx start acc rest := by
  induction block generalizing lineNo with
  | nil => simp
  | cons b bs ih =>
    rw [List.cons_append, gfcGo,
      if_neg (hblock b (List.mem_cons_self b bs)).1,
      if_neg (hblock b (List.mem_cons_self b bs)).2,
      ih (lineNo + 1) fun line hm => hblock line (List.mem_cons_of_mem b hm),
      List.length_cons]
    congr 1
    omega

theorem jsSlice_exact (pre mid post : List α) :
    jsSlice (pre ++ (mid ++ post)) (pre.length : Int)
      ((pre.length : Int) + mid.length) = mid := by
  simp only [jsSlice]
  rw [if_neg (by omega), if_neg (by omega)]
  have hn : ((pre ++ (mid ++ post)).length : Int) =
      (pre.length : Int) + mid.length + post.length := by
    simp [List.length_append]
    omega
  rw [min_eq_left (by omega), min_eq_left (by omega)]
  have hs : ((pre.length : Int)).toNat = pre.length := Int.toNat_ofNat _
  have he : ((pre.length : Int) + mid.length).toNat = pre.length + mid.length := by
    omega
  rw [hs, he, List.take_append_eq_append_take,
    List.take_of_length_le (by omega),
    show pre.length + mid.length - pre.length = mid.length from by omega,
    List.take_append_eq_append_take, List.take_of_length_le (by omega),
    Nat.sub_self, List.take_zero, List.append_nil, List.drop_left]

theorem empty_ne_marker_append (s t : String) : "" ≠ ">>>" ++ s ++ t := by
  intro h
  have hd := congrArg String.data h
  rw [String.data_append, String.data_append] at hd
  simp at hd

theorem empty_ne_marker (s : String) : "" ≠ ">>>" ++ s := by
  intro h
  have hd := congrArg String.data h
  rw [String.data_append] at hd
  simp at hd

theorem gfcGo_stream (fileStrings lines : List String)
    (specs : List (String × Option String)) (pre : List String) (done : Nat)
    (acc : List (Option String))
    (hlines : lines = pre ++ gfcStream specs)
    (hmark : ∀ j (hj : j < specs.length),
      fileStrings.getD (done + j) "undefined" = (specs.get ⟨j, hj⟩).1)
    (hnc : ∀ sp ∈ specs, ∀ c ∈ sp.2.toList, ∀ line ∈ jsSplit '\n' c,
      line ≠ ">>>" ++ sp.1 ∧ line ≠ ">>>" ++ sp.1 ++ " missing") :
    gfcGo fileStrings lines pre.length done pre.length acc (gfcStream specs) =
      acc ++ specs.map Prod.snd := by
  induction specs generalizing pre done acc with
  | nil =>
    rw [show gfcStream [] = [] from rfl,
      show List.map Prod.snd ([] : List (String × Option String)) = [] from rfl,
      List.append_nil]
    rfl
  | cons sp rest ih =>
    have hm0 : gfcMarker fileStrings done = ">>>" ++ sp.1 := by
      have h0 := hmark 0 (by simp)
      rw [Nat.add_zero] at h0
      rw [gfcMarker, h0]
      rfl
    rw [gfcStream_cons] at hlines ⊢
    have hmark' : ∀ j (hj : j < rest.length),
        fileStrings.getD (done + 1 + j) "undefined" = (rest.get ⟨j, hj⟩).1 := by
      intro j hj
      have := hmark (j + 1) (by simp; omega)
      rw [show done + (j + 1) = done + 1 + j from by omega] at this
      exact this
    have hnc' : ∀ q ∈ rest, ∀ c ∈ q.2.toList, ∀ line ∈ jsSplit '\n' c,
        line ≠ ">>>" ++ q.1 ∧ line ≠ ">>>" ++ q.1 ++ " missing" :=
      fun q hq => hnc q (List.mem_cons_of_mem sp hq)
    cases hoc : sp.2 with
    | some c =>
      rw [hoc] at hlines
      simp only [gfcRegion] at hlines ⊢
      have hre : (jsSplit '\n' c ++ ["", ">>>" ++ sp.1]) ++ gfcStream rest =
          (jsSplit '\n' c ++ [""]) ++ ((">>>" ++ sp.1) :: gfcStream rest) := by
        simp
      rw [hre]
      have hblock : ∀ line ∈ jsSplit '\n' c ++ [""],
          line ≠ gfcMarker fileStrings done ∧
          line ≠ gfcMarker fileStrings done ++ " missing" := by
        intro line hl
        rw [hm0]
        rcases List.mem_append.mp hl with h1 | h2
        · exact hnc sp (List.mem_cons_self sp rest) c (by simp [hoc]) line h1
        · rw [List.mem_singleton.mp h2]
          exact ⟨empty_ne_marker sp.1, empty_ne_marker_append sp.1 " missing"⟩
      rw [gfcGo_skip fileStrings lines (jsSplit '\n' c ++ [""])
        ((">>>" ++ sp.1) :: gfcStream rest) pre.length done pre.length acc hblock,
        gfcGo, if_pos hm0.symm]
      have hslice :
          jsSlice lines ((pre.length : Nat) : Int)
              (((pre.length + (jsSplit '\n' c ++ [""]).length : Nat) : Int) - 1) =
            jsSplit '\n' c := by
        rw [hlines, List.append_assoc]
        have harith :
            (((pre.length + (jsSplit '\n' c ++ [""]).length : Nat) : Int) - 1) =
              (pre.length : Int) + ((jsSplit '\n' c).length : Int) := by
          simp only [List.length_append, List.length_cons, List.length_nil]
          push_cast
          ring
        rw [harith]
        exact jsSlice_exact pre (jsSplit '\n' c) _
      rw [hslice, jsJoin_jsSplit]
      have hlen2 : pre.length + (jsSplit '\n' c ++ [""]).length + 1 =
          (pre ++ (jsSplit '\n' c ++ ["", ">>>" ++ sp.1])).length := by
        simp only [List.length_append, List.length_cons, List.length_nil]
        omega
      rw [hlen2,
        ih (pre ++ (jsSplit '\n' c ++ ["", ">>>" ++ sp.1])) (done + 1)
          (acc ++ [some c])
          (by rw [hlines]; simp [List.append_assoc]) hmark' hnc']
      simp [hoc]
    | none =>
      rw [hoc] at hlines
      simp only [gfcRegion] at hlines ⊢
      rw [List.singleton_append, gfcGo, ← hm0,
        if_neg fun h => gfcMarker_ne_missing fileStrings done h.symm,
        if_pos rfl]
      have hlen2 : pre.length + 1 =
          (pre ++ [gfcMarker fileStrings done ++ " missing"]).length := by
        simp only [List.length_append, List.length_cons, List.length_nil]
      rw [hlen2,
        ih (pre ++ [gfcMarker fileStrings done ++ " missing"]) (done + 1)
          (acc ++ [none])
          (by rw [hlines, hm0]; simp) hmark' hnc']
      simp [hoc]

/-! ## Lemmas about the ordinal loader -/

theorem byOrdinal_found (store : List CodeSmell) (lifespan : String) (ordinal : Int)
    (q : CodeSmell) (hq : q ∈ store) (hl : q.lifespan = lifespan)
    (ho : q.ordinal = ordinal)
    (huniq : ∀ r ∈ store, r.lifespan = lifespan → r.ordinal = ordinal → r = q) :
    byOrdinal store lifespan ordinal = .ok q := by
  unfold byOrdinal
  cases hf : store.find? fun cs => cs.lifespan == lifespan && cs.ordinal == ordinal with
  | none =>
    rw [List.find?_eq_none] at hf
    have := hf q hq
    simp [hl, ho] at this
  | some r =>
    have hmem := List.mem_of_find?_eq_some hf
    have hp := List.find?_some hf
    simp only [Bool.and_eq_true, beq_iff_eq] at hp
    rw [huniq r hmem hp.1 hp.2]

theorem byOrdinal_missing (store : List CodeSmell) (lifespan : String) (ordinal : Int)
    (h : ∀ q ∈ store, ¬(q.lifespan = lifespan ∧ q.ordinal = ordinal)) :
    byOrdinal store lifespan ordinal = .error (.unknownCodeSmell lifespan ordinal) := by
  have hnone :
      (store.find? fun cs => cs.lifespan == lifespan && cs.ordinal == ordinal) = none := by
    rw [List.find?_eq_none]
    intro x hx
    simp only [Bool.and_eq_true, beq_iff_eq]
    exact h x hx
  rw [byOrdinal, hnone]

/-! ## Claim theorems -/

/-- C2: the claim fails on the code. `validateObjectID` tests the unanchored
regex `/[a-z0-9]{40}/`, so it accepts the 40-`z` string (which contains
non-hex lowercase letters) and a 44-character string that merely contains a
40-hex run — both of which the claimed specification (`exactly 40 lowercase
hexadecimal characters, full match`) requires to be rejected. -/
theorem validateObjectID_accepts_nonhex :
    validateObjectID "zzzzzzzzzzzzzzzzzzzzzzzzzzzzzzzzzzzzzzzz" =
        .ok "zzzzzzzzzzzzzzzzzzzzzzzzzzzzzzzzzzzzzzzz" ∧
    isFull40Hex "zzzzzzzzzzzzzzzzzzzzzzzzzzzzzzzzzzzzzzzz" = false ∧
    validateObjectID "xx0123456789012345678901234567890123456789yy" =
        .ok "xx0123456789012345678901234567890123456789yy" ∧
    isFull40Hex "xx0123456789012345678901234567890123456789yy" = false :=
  ⟨rfl, by decide, rfl, by decide⟩

/-- C1 (counterexample): the claimed invariant
`len(changeKinds) == len(basePaths)` fails on the file-change line
`"MM\thead"`, where git emitted no explicit base paths but the change-kind
field has two letters: `changeKinds` has length 2 while `basePaths` collapses
to the single head path. -/
theorem parseCombinedDiffLine_lengths_counterexample :
    (parseCombinedDiffLine "MM\thead").changeKinds.length = 2 ∧
    (parseCombinedDiffLine "MM\thead").basePaths.length = 1 := by decide

/-- C1 (amended): `len(changeKinds) == len(basePaths) == k` holds — where
`k` is the number of change-kind letters, one per parent — for every
file-change line that either carries explicit base paths, one per
change-kind letter (as git emits for merge commits, renames and copies), or
carries no explicit base paths and a single change-kind letter (the
ordinary single-parent case, where the base paths default to the head
path); only a line with no explicit base paths and more than one
change-kind letter can violate the equality. -/
theorem parseCombinedDiffLine_lengths (fileLine : String)
    (h : (((jsSplit '\t' fileLine).drop 2).length = (diffLineKinds fileLine).length ∧
        0 < ((jsSplit '\t' fileLine).drop 2).length) ∨
      ((jsSplit '\t' fileLine).drop 2 = [] ∧ (diffLineKinds fileLine).length = 1)) :
    (parseCombinedDiffLine fileLine).changeKinds.length =
        (diffLineKinds fileLine).length ∧
    (parseCombinedDiffLine fileLine).basePaths.length =
        (diffLineKinds fileLine).length := by
  refine ⟨rfl, ?_⟩
  show (applyChangeKinds 0 (diffLineKinds fileLine)
    (diffLineHeadPath0 fileLine, diffLineBasePaths0 fileLine)).2.length = _
  rcases h with ⟨hcount, hpos⟩ | ⟨hnil, hone⟩
  · have hb : diffLineBasePaths0 fileLine =
        ((jsSplit '\t' fileLine).drop 2).map JsVal.str := by
      rw [diffLineBasePaths0, if_pos hpos]
    rw [applyChangeKinds_length]
    · show (diffLineBasePaths0 fileLine).length = _
      rw [hb, List.length_map, hcount]
    · show _ ≤ (diffLineBasePaths0 fileLine).length
      rw [hb, List.length_map]
      omega
  · have hb : diffLineBasePaths0 fileLine = [diffLineHeadPath0 fileLine] := by
      rw [diffLineBasePaths0, if_neg (by rw [hnil]; simp)]
    rw [applyChangeKinds_length]
    · show (diffLineBasePaths0 fileLine).length = _
      rw [hb, hone]
      rfl
    · show _ ≤ (diffLineBasePaths0 fileLine).length
      rw [hb, hone]
      simp

/-- Witness for C1 (amended) at the concrete merge line `"MM\th\tb1\tb2"`
(explicit base paths) and the ordinary single-parent line `"M\thead"`
(no explicit base paths, one change-kind letter). -/
theorem parseCombinedDiffLine_lengths_witness :
    ((parseCombinedDiffLine "MM\th\tb1\tb2").changeKinds.length = 2 ∧
      (parseCombinedDiffLine "MM\th\tb1\tb2").basePaths.length = 2) ∧
    ((parseCombinedDiffLine "M\thead").changeKinds.length = 1 ∧
      (parseCombinedDiffLine "M\thead").basePaths.length = 1) := by
  have h1 := parseCombinedDiffLine_lengths "MM\th\tb1\tb2" (Or.inl (by decide))
  have h2 := parseCombinedDiffLine_lengths "M\thead" (Or.inr (by decide))
  exact ⟨⟨h1.1.trans (by decide), h1.2.trans (by decide)⟩,
    ⟨h2.1.trans (by decide), h2.2.trans (by decide)⟩⟩

/-- C4: round-trip — encoding a commit record as the newline-separated
fixed-field chunk and parsing it with `parseCommit` yields the original
record, for any number of parents (including zero) and any message
(including multi-line); the fixed fields must be newline-free and each
parent hash nonempty, space-free and newline-free, as git object IDs are. -/
theorem parseCommit_roundtrip (c : Commit)
    (hoid : '\n' ∉ c.oid.data)
    (han : '\n' ∉ c.author.name.data) (hae : '\n' ∉ c.author.email.data)
    (had : '\n' ∉ c.author.date.data)
    (hcn : '\n' ∉ c.committer.name.data) (hce : '\n' ∉ c.committer.email.data)
    (hcd : '\n' ∉ c.committer.date.data)
    (hpar : ∀ p ∈ c.parents, p ≠ "" ∧ ' ' ∉ p.data ∧ '\n' ∉ p.data) :
    parseCommit (encodeCommitChunk c) = c := by
  obtain ⟨oid, parents, ⟨an, ae, ad⟩, ⟨cn, ce, cd⟩, msg⟩ := c
  have hpn : '\n' ∉ (jsJoin ' ' parents).data := by
    intro hmem
    rcases mem_joinChar hmem with h1 | ⟨ch, hch, hy⟩
    · exact absurd h1 (by decide)
    · obtain ⟨p, hp, rfl⟩ := List.mem_map.mp hch
      exact (hpar p hp).2.2 hy
  have hlines :
      jsSplit '\n' (encodeCommitChunk ⟨oid, parents, ⟨an, ae, ad⟩, ⟨cn, ce, cd⟩, msg⟩) =
        [oid, jsJoin ' ' parents, an, ae, ad, cn, ce, cd] ++ jsSplit '\n' msg := by
    show (splitChar '\n'
        (joinChar '\n'
          ([oid.data, (jsJoin ' ' parents).data, an.data, ae.data, ad.data,
            cn.data, ce.data, cd.data] ++ [msg.data]))).map String.mk = _
    rw [splitChar_joinChar_with_tail '\n' _ _ (by
      intro ch hm
      simp only [List.mem_cons, List.not_mem_nil, or_false] at hm
      rcases hm with rfl | rfl | rfl | rfl | rfl | rfl | rfl | rfl <;>
        assumption)]
    simp [jsSplit, string_mk_data]
  show parseCommit _ = _
  rw [parseCommit]
  simp only [hlines, List.cons_append, List.nil_append, List.getD_cons_zero,
    List.getD_cons_succ, List.drop_succ_cons, List.drop_zero]
  rw [jsJoin_jsSplit]
  cases hps : parents with
  | nil => simp [jsJoin, joinChar, List.intercalate]
  | cons p ps =>
    rw [if_neg (jsJoin_cons_ne_empty ' ' p ps ((hpar p (by rw [hps]; simp)).1)),
      jsSplit_jsJoin ' ' (p :: ps) (List.cons_ne_nil p ps) (by
        intro q hq
        exact (hpar q (by rw [hps]; exact hq)).2.1)]

/-- Witness for C4: a zero-parent commit with a multi-line message and a
two-parent merge commit both round-trip through the chunk encoding. -/
theorem parseCommit_roundtrip_witness :
    parseCommit (encodeCommitChunk
        { oid := "a1", parents := [],
          author := { name := "Alice", email := "alice@example.org", date := "2020-01-01T00:00:00+00:00" },
          committer := { name := "Bob", email := "bob@example.org", date := "2020-01-02T00:00:00+00:00" },
          message := "subject\n\nbody" }) =
      { oid := "a1", parents := [],
        author := { name := "Alice", email := "alice@example.org", date := "2020-01-01T00:00:00+00:00" },
        committer := { name := "Bob", email := "bob@example.org", date := "2020-01-02T00:00:00+00:00" },
        message := "subject\n\nbody" } ∧
    parseCommit (encodeCommitChunk
        { oid := "c3", parents := ["p1", "p2"],
          author := { name := "A", email := "a@x", date := "d1" },
          committer := { name := "B", email := "b@x", date := "d2" },
          message := "" }) =
      { oid := "c3", parents := ["p1", "p2"],
        author := { name := "A", email := "a@x", date := "d1" },
        committer := { name := "B", email := "b@x", date := "d2" },
        message := "" } :=
  ⟨parseCommit_roundtrip _ (by decide) (by decide) (by decide) (by decide)
      (by decide) (by decide) (by decide) (by decide),
    parseCommit_roundtrip _ (by decide) (by decide) (by decide) (by decide)
      (by decide) (by decide) (by decide) (by decide)⟩

/-- C3: for every ordered list of specs, decoding the batch response stream
returns one entry per spec in request order: exactly the requested blob
content for a present object, and null exactly for the specs whose boundary
marker carries the ` missing` tag. Hypotheses: spec identifiers contain no
newline (they are `commit:path` strings), and no content line collides with
its own spec's boundary markers (guaranteed by the caller's distinct,
non-data-derived identifiers, spec §4.5). -/
theorem getFileContents_spec (specs : List (String × Option String))
    (hnl : ∀ sp ∈ specs, '\n' ∉ sp.1.data)
    (hnc : ∀ sp ∈ specs, ∀ c ∈ sp.2.toList, ∀ line ∈ jsSplit '\n' c,
      line ≠ ">>>" ++ sp.1 ∧ line ≠ ">>>" ++ sp.1 ++ " missing") :
    getFileContents (specs.map Prod.fst) (gfcStdout specs) = specs.map Prod.snd := by
  cases specs with
  | nil => rfl
  | cons sp0 rest0 =>
    have hne : gfcStream (sp0 :: rest0) ≠ [] := by
      rw [gfcStream_cons]
      cases sp0.2 <;> simp [gfcRegion]
    have hlines : jsSplit '\n' (gfcStdout (sp0 :: rest0)) = gfcStream (sp0 :: rest0) :=
      jsSplit_jsJoin '\n' _ hne (gfcStream_no_newline _ hnl)
    show gfcGo ((sp0 :: rest0).map Prod.fst) (jsSplit '\n' (gfcStdout (sp0 :: rest0)))
      0 0 0 [] (jsSplit '\n' (gfcStdout (sp0 :: rest0))) = _
    rw [hlines]
    have hmark : ∀ j (hj : j < (sp0 :: rest0).length),
        ((sp0 :: rest0).map Prod.fst).getD (0 + j) "undefined" =
          ((sp0 :: rest0).get ⟨j, hj⟩).1 := by
      intro j hj
      rw [Nat.zero_add,
        List.getD_eq_getElem ((sp0 :: rest0).map Prod.fst) "undefined"
          (by simpa using hj), List.getElem_map]
      rfl
    have h0 := gfcGo_stream ((sp0 :: rest0).map Prod.fst) (gfcStream (sp0 :: rest0))
      (sp0 :: rest0) [] 0 [] (by simp) hmark hnc
    simpa using h0

/-- Witness for C3: two specs where the second object is absent decode to
the first blob's bytes followed by null, preserving request order. -/
theorem getFileContents_spec_witness :
    getFileContents ["c1:f1", "c2:f2"]
        (gfcStdout [("c1:f1", some "A\nB"), ("c2:f2", none)]) =
      [some "A\nB", none] := by
  have h := getFileContents_spec [("c1:f1", some "A\nB"), ("c2:f2", none)]
    (by decide) (by decide)
  simpa using h

/-- C9: `predecessor` resolves to the detection of the same lifespan with
ordinal one less, `successor` to the detection with ordinal one greater (the
detection being unique for its lifespan/ordinal pair); when no such
detection exists — in particular for the first and last detections of a
lifespan — the resolver returns null rather than an error. -/
theorem predecessor_successor_spec (store : List CodeSmell) (d : CodeSmell) :
    (∀ q ∈ store, q.lifespan = d.lifespan → q.ordinal = d.ordinal - 1 →
      (∀ r ∈ store, r.lifespan = d.lifespan → r.ordinal = d.ordinal - 1 → r = q) →
      predecessor store d = .ok (some q)) ∧
    ((∀ q ∈ store, ¬(q.lifespan = d.lifespan ∧ q.ordinal = d.ordinal - 1)) →
      predecessor store d = .ok none) ∧
    (∀ q ∈ store, q.lifespan = d.lifespan → q.ordinal = d.ordinal + 1 →
      (∀ r ∈ store, r.lifespan = d.lifespan → r.ordinal = d.ordinal + 1 → r = q) →
      successor store d = .ok (some q)) ∧
    ((∀ q ∈ store, ¬(q.lifespan = d.lifespan ∧ q.ordinal = d.ordinal + 1)) →
      successor store d = .ok none) := by
  refine ⟨?_, ?_, ?_, ?_⟩
  · intro q hq hl ho hu
    rw [predecessor, byOrdinal_found store d.lifespan (d.ordinal - 1) q hq hl ho hu]
  · intro h
    rw [predecessor, byOrdinal_missing store d.lifespan (d.ordinal - 1) h]
  · intro q hq hl ho hu
    rw [successor, byOrdinal_found store d.lifespan (d.ordinal + 1) q hq hl ho hu]
  · intro h
    rw [successor, byOrdinal_missing store d.lifespan (d.ordinal + 1) h]

/-- Witness for C9 on a two-detection lifespan: interior links resolve to
the neighbouring detection, and the first/last detections get null. -/
theorem predecessor_successor_spec_witness :
    predecessor [⟨"s1", "L", 0⟩, ⟨"s2", "L", 1⟩] ⟨"s2", "L", 1⟩ =
      .ok (some ⟨"s1", "L", 0⟩) ∧
    predecessor [⟨"s1", "L", 0⟩, ⟨"s2", "L", 1⟩] ⟨"s1", "L", 0⟩ = .ok none ∧
    successor [⟨"s1", "L", 0⟩, ⟨"s2", "L", 1⟩] ⟨"s1", "L", 0⟩ =
      .ok (some ⟨"s2", "L", 1⟩) ∧
    successor [⟨"s1", "L", 0⟩, ⟨"s2", "L", 1⟩] ⟨"s2", "L", 1⟩ = .ok none :=
  ⟨(predecessor_successor_spec _ _).1 _ (by decide) (by decide) (by decide) (by decide),
    (predecessor_successor_spec _ _).2.1 (by decide),
    (predecessor_successor_spec _ _).2.2.1 _ (by decide) (by decide) (by decide)
      (by decide),
    (predecessor_successor_spec _ _).2.2.2 (by decide)⟩

/-- C10: `getCommits` never fails with `UnknownCommitError`: requested oids
are pre-filtered (syntactically via the `[a-f0-9]{40}` test, then for
existence via `rev-list --ignore-missing`), unknown or malformed ids are
silently omitted from the result, and every returned entry is keyed by the
parsed commit's own oid. -/
theorem getCommits_spec (repoExists : Bool) (repository : String) (repo : List Commit)
    (commitOids : List String) :
    (∀ rep com,
      getCommits repoExists repository repo commitOids ≠
        .error (.unknownCommit rep com)) ∧
    (∀ entries, getCommits repoExists repository repo commitOids = .ok entries →
      (∀ kc ∈ entries, kc.1 = kc.2.oid ∧ kc.2 ∈ repo ∧
        ∃ oid ∈ commitOids, hasRun40 isHexLower oid.data = true ∧ kc.2.oid = oid) ∧
      (∀ oid ∈ commitOids,
        (hasRun40 isHexLower oid.data = false ∨ ∀ c ∈ repo, c.oid ≠ oid) →
        ∀ kc ∈ entries, kc.1 ≠ oid)) := by
  constructor
  · intro rep com h
    unfold getCommits at h
    split at h <;> simp at h
  · intro entries he
    unfold getCommits at he
    split at he
    case isFalse => exact absurd he (by simp)
    obtain rfl := (Except.ok.inj he).symm
    constructor
    · intro kc hkc
      obtain ⟨c, hc, rfl⟩ := List.mem_map.mp hkc
      obtain ⟨oid, hoid, hfind⟩ := List.mem_filterMap.mp hc
      have hcrepo := List.mem_of_find?_eq_some hfind
      have hcoid : c.oid = oid := by simpa using List.find?_some hfind
      obtain ⟨hoid1, hex⟩ := List.mem_filter.mp hoid
      obtain ⟨hoid2, hrun⟩ := List.mem_filter.mp hoid1
      exact ⟨rfl, hcrepo, oid, hoid2, by simpa using hrun, hcoid⟩
    · intro oid hoid hbad kc hkc hkoid
      obtain ⟨c, hc, rfl⟩ := List.mem_map.mp hkc
      obtain ⟨oid', hoid', hfind⟩ := List.mem_filterMap.mp hc
      have hcrepo := List.mem_of_find?_eq_some hfind
      have hcoid : c.oid = oid' := by simpa using List.find?_some hfind
      obtain ⟨hoid1, hex⟩ := List.mem_filter.mp hoid'
      obtain ⟨hoid2, hrun⟩ := List.mem_filter.mp hoid1
      have hoo : oid' = oid := hcoid ▸ hkoid
      rcases hbad with hb | hb
      · rw [hoo] at hrun
        rw [hb] at hrun
        exact absurd hrun (by simp)
      · exact hb c hcrepo (hcoid.trans hoo)

/-- Witness for C10: a malformed id, a well-formed-but-absent id and a
present id — only the present one is returned, keyed by its own oid. -/
theorem getCommits_spec_witness :
    (∀ kc ∈ (getCommits true "r"
        [{ oid := "0123456789012345678901234567890123456789", parents := [],
           author := ⟨"a", "a", "d"⟩, committer := ⟨"a", "a", "d"⟩, message := "m" }]
        ["0123456789012345678901234567890123456789",
          "abcdefabcdefabcdefabcdefabcdefabcdefabcd", "not-an-oid"]).toOption.getD [],
      kc.1 = kc.2.oid) ∧
    (∀ kc ∈ (getCommits true "r"
        [{ oid := "0123456789012345678901234567890123456789", parents := [],
           author := ⟨"a", "a", "d"⟩, committer := ⟨"a", "a", "d"⟩, message := "m" }]
        ["0123456789012345678901234567890123456789",
          "abcdefabcdefabcdefabcdefabcdefabcdefabcd", "not-an-oid"]).toOption.getD [],
      kc.1 ≠ "not-an-oid") := by
  constructor
  · intro kc hkc
    exact (((getCommits_spec true "r" _ _).2 _ rfl).1 kc hkc).1
  · intro kc hkc
    exact ((getCommits_spec true "r" _ _).2 _ rfl).2 "not-an-oid" (by decide)
      (Or.inl (by decide)) kc hkc

/-- C7: the history walk's process failures are classified exactly once, in
source order: kill flag → AbortError; ENOENT → UnknownRepositoryError;
exit 128 with stderr starting `fatal: bad object` → UnknownCommitError for
the start revision; exit 128 with stderr starting `fatal: bad revision` →
UnknownRevisionError; anything else is rethrown as-is. -/
theorem classifyLogError_spec (repository startRevision : String) (e : ExecError) :
    (e.killed = true →
      classifyLogError repository startRevision e = .abortError) ∧
    (e.killed = false → e.code = some "ENOENT" →
      classifyLogError repository startRevision e = .unknownRepository repository) ∧
    (e.killed = false → e.code ≠ some "ENOENT" →
      e.exitCode = some 128 → stderrStarts e "fatal: bad object" = true →
      classifyLogError repository startRevision e =
        .unknownCommit repository startRevision) ∧
    (e.killed = false → e.code ≠ some "ENOENT" →
      e.exitCode = some 128 → stderrStarts e "fatal: bad object" = false →
      stderrStarts e "fatal: bad revision" = true →
      classifyLogError repository startRevision e =
        .unknownRevision repository startRevision) ∧
    (e.killed = false → e.code ≠ some "ENOENT" →
      (e.exitCode ≠ some 128 ∨
        (stderrStarts e "fatal: bad object" = false ∧
          stderrStarts e "fatal: bad revision" = false)) →
      classifyLogError repository startRevision e = .rethrown e) := by
  unfold classifyLogError
  refine ⟨?_, ?_, ?_, ?_, ?_⟩
  · intro hk
    rw [if_pos hk]
  · intro hk hc
    rw [if_neg (by simp [hk]), if_pos hc]
  · intro hk hc he hs
    rw [if_neg (by simp [hk]), if_neg hc, if_pos ⟨he, hs⟩]
  · intro hk hc he hso hsr
    rw [if_neg (by simp [hk]), if_neg hc, if_neg (by simp [hso]), if_pos ⟨he, hsr⟩]
  · intro hk hc hor
    rw [if_neg (by simp [hk]), if_neg hc]
    rcases hor with he | ⟨hso, hsr⟩
    · rw [if_neg (by simp [he]), if_neg (by simp [he])]
    · rw [if_neg (by simp [hso]), if_neg (by simp [hsr])]

/-- Witness for C7: one concrete failure per classification branch. -/
theorem classifyLogError_spec_witness :
    classifyLogError "r" "HEAD"
        { killed := true, code := none, exitCode := none, stderr := none } =
      .abortError ∧
    classifyLogError "r" "HEAD"
        { killed := false, code := some "ENOENT", exitCode := none, stderr := none } =
      .unknownRepository "r" ∧
    classifyLogError "r" "HEAD"
        { killed := false, code := none, exitCode := some 128,
          stderr := some "fatal: bad object deadbeef" } =
      .unknownCommit "r" "HEAD" ∧
    classifyLogError "r" "HEAD"
        { killed := false, code := none, exitCode := some 128,
          stderr := some "fatal: bad revision 'nope'" } =
      .unknownRevision "r" "HEAD" ∧
    classifyLogError "r" "HEAD"
        { killed := false, code := none, exitCode := some 1,
          stderr := some "fatal: something else" } =
      .rethrown
        { killed := false, code := none, exitCode := some 1,
          stderr := some "fatal: something else" } :=
  ⟨(classifyLogError_spec "r" "HEAD" _).1 rfl,
    (classifyLogError_spec "r" "HEAD" _).2.1 rfl rfl,
    (classifyLogError_spec "r" "HEAD" _).2.2.1 rfl (by decide) rfl (by decide),
    (classifyLogError_spec "r" "HEAD" _).2.2.2.1 rfl (by decide) rfl (by decide)
      (by decide),
    (classifyLogError_spec "r" "HEAD" _).2.2.2.2 rfl (by decide)
      (Or.inl (by decide))⟩

/-- C8: the claim fails on the code: for a multi-line range the source cuts
the last selected line with one-argument `slice(end.character)`, keeping the
*suffix* from `end.character` instead of the prefix before it. On content
`"abc\ndef"` with range (0,1)-(1,2) the resolver returns `"bc\nf"` while the
specified end-exclusive extraction is `"bc\nde"`. (The single-line branch
uses the correct two-argument slice.) -/
theorem locationContent_bug :
    locationContent "abc\ndef" ⟨⟨0, 1⟩, ⟨1, 2⟩⟩ = "bc\nf" ∧
    specRangeContent "abc\ndef" ⟨⟨0, 1⟩, ⟨1, 2⟩⟩ = "bc\nde" ∧
    locationContent "abc\ndef" ⟨⟨0, 1⟩, ⟨1, 2⟩⟩ ≠
      specRangeContent "abc\ndef" ⟨⟨0, 1⟩, ⟨1, 2⟩⟩ ∧
    locationContent "abcdef" ⟨⟨0, 1⟩, ⟨0, 4⟩⟩ = "bcd" ∧
    specRangeContent "abcdef" ⟨⟨0, 1⟩, ⟨0, 4⟩⟩ = "bcd" := by
  refine ⟨rfl, rfl, by decide, rfl, rfl⟩

/-- C6: `validateRelativeRepoPath` normalizes its argument and accepts iff
the normalized form is neither absolute nor contains a `..` segment,
returning the normalized form; `"../etc/passwd"` and `"/etc/passwd"` are
rejected while `"a/b/../c"` is accepted as `"a/c"`. -/
theorem validateRelativeRepoPath_spec :
    (∀ p : String,
      ((validateRelativeRepoPath p).isOk = true ↔
        ((posixNormalize p).data.head? ≠ some '/' ∧
          ['.', '.'] ∉ splitChar '/' (posixNormalize p).data)) ∧
      ∀ q, validateRelativeRepoPath p = .ok q → q = posixNormalize p) ∧
    (validateRelativeRepoPath "../etc/passwd").isOk = false ∧
    (validateRelativeRepoPath "/etc/passwd").isOk = false ∧
    validateRelativeRepoPath "a/b/../c" = .ok "a/c" := by
  refine ⟨fun p => ?_, by decide, by decide, rfl⟩
  by_cases hA : (posixNormalize p).data.head? = some '/'
  · constructor
    · rw [validateRelativeRepoPath, if_pos hA]
      simp [Except.isOk, Except.toBool, hA]
    · intro q hq
      rw [validateRelativeRepoPath, if_pos hA] at hq
      exact absurd hq (by simp)
  · by_cases hB : hasDotDotRef (posixNormalize p) = true
    · constructor
      · rw [validateRelativeRepoPath, if_neg hA, if_pos hB]
        simp only [Except.isOk, Except.toBool, Bool.false_eq_true, false_iff, not_and,
          not_not]
        intro
        exact (hasDotDotRef_iff _).mp hB
      · intro q hq
        rw [validateRelativeRepoPath, if_neg hA, if_pos hB] at hq
        exact absurd hq (by simp)
    · constructor
      · rw [validateRelativeRepoPath, if_neg hA, if_neg hB]
        simp only [Except.isOk, Except.toBool, true_iff]
        exact ⟨hA, fun hmem => hB ((hasDotDotRef_iff _).mpr hmem)⟩
      · intro q hq
        rw [validateRelativeRepoPath, if_neg hA, if_neg hB] at hq
        exact (Except.ok.inj hq).symm

/-- Witness for C6 at `"a/b/../c"`: the interior `..` is normalized away and
the path is accepted. -/
theorem validateRelativeRepoPath_spec_witness :
    (validateRelativeRepoPath "a/b/../c").isOk = true :=
  ((validateRelativeRepoPath_spec.1 "a/b/../c").1).mpr (by decide)

/-- C5: in every `CombinedFileDifference` decoded from a file-change line,
`Added` at parent index `i` forces `basePaths[i] = null`, and `Deleted` at
any parent index forces `headPath = null` (even when other parents are
classified differently). -/
theorem parseCombinedDiffLine_null_paths (fileLine : String) :
    (∀ i : Nat,
      (parseCombinedDiffLine fileLine).changeKinds[i]? = some ChangeKind.Added →
      (parseCombinedDiffLine fileLine).basePaths[i]? = some JsVal.null) ∧
    ((∃ i : Nat,
      (parseCombinedDiffLine fileLine).changeKinds[i]? = some ChangeKind.Deleted) →
      (parseCombinedDiffLine fileLine).headPath = JsVal.null) := by
  constructor
  · intro i hi
    show (applyChangeKinds 0 (diffLineKinds fileLine)
      (diffLineHeadPath0 fileLine, diffLineBasePaths0 fileLine)).2[i]? = some JsVal.null
    simpa using applyChangeKinds_added (diffLineKinds fileLine) 0
      (diffLineHeadPath0 fileLine, diffLineBasePaths0 fileLine) i hi
  · rintro ⟨i, hi⟩
    obtain ⟨hlt, hget⟩ := List.getElem?_eq_some_iff.mp hi
    have hmem : ChangeKind.Deleted ∈ diffLineKinds fileLine :=
      hget ▸ List.getElem_mem hlt
    show (applyChangeKinds 0 (diffLineKinds fileLine)
      (diffLineHeadPath0 fileLine, diffLineBasePaths0 fileLine)).1 = JsVal.null
    rw [applyChangeKinds_headPath, if_pos hmem]

/-- Witness for C5: `Added` relative to the first parent nulls the first base
path, and `Deleted` relative to the second parent nulls the head path even
though the first parent shows `Modified`. -/
theorem parseCombinedDiffLine_null_paths_witness :
    (parseCombinedDiffLine "AD\th\tb1\tb2").basePaths[0]? = some JsVal.null ∧
    (parseCombinedDiffLine "MD\th\tb1\tb2").headPath = JsVal.null :=
  ⟨(parseCombinedDiffLine_null_paths "AD\th\tb1\tb2").1 0 (by decide),
   (parseCombinedDiffLine_null_paths "MD\th\tb1\tb2").2 ⟨1, by decide⟩⟩

end Olfaction
